import Mathlib

/-!
Verification of `lazyflow/operators/ioOperators/ioOperators.py`.

We shallowly embed the pure computational core of the module:

* `OpH5WriterBigDataset.computeRequestSlicings` — the tile-list generator
  (`computeRequestSlicings` below, over per-axis `pythonRange` and the
  cartesian product `prodLists` mirroring `itertools.product`);
* the chunk-shape planner shared by `OpH5WriterBigDataset.setupOutputs`
  and `OpStackToH5Writer.execute` (`cubeDim`, `chunkDims`, `chunkShape`);
* the bounded streaming loop of `OpH5WriterBigDataset.execute`
  (`popMany` for the initial `slicings.pop()` submissions, `streamTrace`
  for the while-loop over the two deques, and the derived projections
  `executeWrites`, `executeSubmitOrder`, `executeProgress`);
* the per-slice copy loop of `OpStackToH5Writer.execute`
  (`opStackToH5Progress`);
* `OpStackLoader.execute`'s shape check (`stackLoadLoop`,
  `opStackLoaderRead`) and `OpStackLoader.setupOutputs`'s glob-list
  expansion (`fileNameList`);
* the `numChannels` computations of both writers
  (`numChannelsStackWriter`, `numChannelsBigWriter`).

Machine integers are modelled by `Nat`; Python 2 `/` on ints is floor
division, i.e. `Nat` division.  `int(math.pow(q, 1/3.0))` is modelled by
the exact integer cube root `natCbrt`.
-/

namespace LazyflowIO

/-- The five axis keys used by vigra axistags in this module. -/
inductive Axis
  | t | x | y | z | c
  deriving DecidableEq, Repr

/-- The per-axis tile multiplier from `computeRequestSlicings`:
`multipliers = { 'x':5, 'y':5, 'z':5, 't':1, 'c':100 }`. -/
def multiplier : Axis → Nat
  | .t => 1
  | .x => 5
  | .y => 5
  | .z => 5
  | .c => 100

/-- Python `range(0, stop, step)` for a positive `step`:
`[0, step, 2*step, ...)` strictly below `stop`. -/
def pythonRange (stop step : Nat) : List Nat :=
  (List.range ((stop + step - 1) / step)).map (· * step)

/-- `itertools.product` over a list of lists; the first list is the
outermost loop (the last axis varies fastest). -/
def prodLists : List (List Nat) → List (List Nat)
  | [] => [[]]
  | l :: ls => l.flatMap (fun a => (prodLists ls).map (a :: ·))

/-- `shift = numpy.minimum(chunkShape * multiplier, shape)`, elementwise. -/
def tileShift : List Nat → List Nat → List Axis → List Nat
  | sp :: shape, ch :: chunk, a :: tags =>
      min (ch * multiplier a) sp :: tileShift shape chunk tags
  | _, _, _ => []

/-- `stop = numpy.minimum(start + shift, shape)`, elementwise. -/
def tileStops : List Nat → List Nat → List Nat → List Nat
  | st :: start, sh :: shift, sp :: shape =>
      min (st + sh) sp :: tileStops start shift shape
  | _, _, _ => []

/-- `OpH5WriterBigDataset.computeRequestSlicings`: enumerate
`itertools.product(*[range(0, stop, step) for stop, step in zip(shape, shift)])`
and emit the ROI `(start, min(start + shift, shape))` for each start. -/
def computeRequestSlicings (shape chunk : List Nat) (tags : List Axis) :
    List (List Nat × List Nat) :=
  let shift := tileShift shape chunk tags
  (prodLists (List.zipWith pythonRange shape shift)).map
    (fun start => (start, tileStops start shift shape))

/-- `memROI p start stop` holds when the point `p` lies in the ROI
`[start, stop)` pointwise (and the three lists have equal length). -/
def memROI : List Nat → List Nat → List Nat → Bool
  | [], [], [] => true
  | p :: ps, a :: as, b :: bs =>
      decide (a ≤ p) && decide (p < b) && memROI ps as bs
  | _, _, _ => false

/-- `inBoundsB p shape` holds when `p` is a point of the full extent
`[0, shape)` (pointwise, equal lengths). -/
def inBoundsB : List Nat → List Nat → Bool
  | [], [] => true
  | p :: ps, s :: ss => decide (p < s) && inBoundsB ps ss
  | _, _ => false

/-- Largest `k ≤ fuel` with `k*k*k ≤ n` (0 if none). -/
def cbrtAux (n : Nat) : Nat → Nat
  | 0 => 0
  | k + 1 => if (k + 1) * (k + 1) * (k + 1) ≤ n then k + 1 else cbrtAux n k

/-- Exact integer cube root: the largest `k` with `k^3 ≤ n`.  Models
`int(math.pow(n, 1/3.0))` exactly.  `Nat.sqrt n + 1` is a sound search
bound since `k^3 ≤ n` implies `k ≤ Nat.sqrt n + 1`. -/
def natCbrt (n : Nat) : Nat := cbrtAux n (Nat.sqrt n + 1)

/-- `cubeDim = int(math.pow(300000 / (numChannels * dtypeBytes), 1/3.0))`
with Python 2 integer division. -/
def cubeDim (numChannels dtypeBytes : Nat) : Nat :=
  natCbrt (300000 / (numChannels * dtypeBytes))

/-- The per-axis chunk targets `chunkDims` of both writers. -/
def chunkDims (numChannels dtypeBytes : Nat) : Axis → Nat
  | .t => 1
  | .x => cubeDim numChannels dtypeBytes
  | .y => cubeDim numChannels dtypeBytes
  | .z => cubeDim numChannels dtypeBytes
  | .c => numChannels

/-- The chunk shape: `chunkShape += (min(chunkDims[axisKey], dataShape[i]),)`
for each axis of the data. -/
def chunkShape (numChannels dtypeBytes : Nat) (tags : List Axis)
    (shape : List Nat) : List Nat :=
  (tags.zip shape).map (fun p => min (chunkDims numChannels dtypeBytes p.1) p.2)

/-- `OpStackToH5Writer.execute`'s channel count: `index_ = axistags.index('c')`
(which is `len(axistags)` when absent, modelled by `List.indexOf`), then
`1` if `index_ >= len(dataShape)` else `dataShape[index_]`. -/
def numChannelsStackWriter (tags : List Axis) (shape : List Nat) : Nat :=
  let i := tags.indexOf Axis.c
  if shape.length ≤ i then 1 else shape.getD i 0

/-- `OpH5WriterBigDataset.setupOutputs`'s channel count:
`dataShape[axistags.index('c')]` with no bounds check — `none` models the
`IndexError` raised when the channel axis is absent. -/
def numChannelsBigWriter (tags : List Axis) (shape : List Nat) : Option Nat :=
  shape[tags.indexOf Axis.c]?

/-- The per-file loop of `OpStackLoader.execute`: for each file (given as
its probed shape and its decoded data) check the shape against the
reference shape probed at configuration time, and only then copy the
slice into the accumulated result.  Returns the written slices and the
error, if any. -/
def stackLoadLoop (ref : Nat × Nat × Nat) :
    List ((Nat × Nat × Nat) × α) → List α → List α × Option String
  | [], acc => (acc, none)
  | (s, d) :: rest, acc =>
      if s = ref then stackLoadLoop ref rest (acc ++ [d])
      else (acc, some "not all files have the same shape")

/-- `OpStackLoader.execute` on a read ROI: the files touched are
`fileNameList[key[2]]`, i.e. the slice `[zstart, zstop)` of the file
list. -/
def opStackLoaderRead (ref : Nat × Nat × Nat)
    (files : List ((Nat × Nat × Nat) × α)) (zstart zstop : Nat) :
    List α × Option String :=
  stackLoadLoop ref ((files.drop zstart).take (zstop - zstart)) []

/-- `OpStackLoader.setupOutputs`'s file-list construction:
`for globString in sorted(globStrings.split("//")):
  self.fileNameList += sorted(glob.glob(globString))`.
The filesystem's glob expansion is the parameter `globFn`; Python's
stable `sorted` on strings is the lexicographic `insertionSort`. -/
def fileNameList (globStrings : String) (globFn : String → List String) :
    List String :=
  (List.insertionSort (· ≤ ·) (globStrings.splitOn "//")).foldl
    (fun acc g => acc ++ List.insertionSort (· ≤ ·) (globFn g)) []

/-- Modelled from the spec's words (§4.2): expand each pattern, sort each
group lexicographically, sort the groups by pattern text, concatenate. -/
def specOrderedFileList (globStrings : String)
    (globFn : String → List String) : List String :=
  (List.insertionSort (· ≤ ·) (globStrings.splitOn "//")).flatMap
    (fun g => List.insertionSort (· ≤ ·) (globFn g))

/-- One iteration of `OpH5WriterBigDataset.execute`'s streaming loop:
the tile written (oldest active request), the number of requests in
flight while waiting for it, the tile newly submitted afterwards (if the
pending list is non-empty), and the progress value emitted. -/
structure TraceEntry (α : Type) where
  written : α
  activeLen : Nat
  submitted : Option α
  progress : Nat
  deriving DecidableEq, Repr

/-- The initial submission loop
`for i in range(min(10, len(slicings))): s = slicings.pop(); ...` —
`list.pop()` removes the LAST element, so tiles move from the end of
`pending` to the back of `active`. -/
def popMany : Nat → List α → List α → List α × List α
  | 0, pending, active => (pending, active)
  | k + 1, pending, active =>
      match pending.getLast? with
      | none => (pending, active)
      | some s => popMany k pending.dropLast (active ++ [s])

/-- The `while len(activeRequests) > 0` loop of
`OpH5WriterBigDataset.execute`: pop the oldest active request, write it,
submit the last pending tile (if any) to the back of the active queue,
emit `100 * counter / total`, increment `counter`. -/
def streamTrace : List α → List α → Nat → Nat → List (TraceEntry α)
  | _pending, [], _counter, _total => []
  | pending, a :: as, counter, total =>
      match h : pending.getLast? with
      | none =>
          ⟨a, as.length + 1, none, 100 * counter / total⟩ ::
            streamTrace [] as (counter + 1) total
      | some p =>
          ⟨a, as.length + 1, some p, 100 * counter / total⟩ ::
            streamTrace pending.dropLast (as ++ [p]) (counter + 1) total
  termination_by pending active => pending.length + active.length
  decreasing_by
  · simp [List.length_dropLast]
    omega
  · have hne : pending ≠ [] := by
      intro hnil
      rw [hnil] at h
      simp at h
    have hlen : 0 < pending.length := List.length_pos.mpr hne
    simp [List.length_dropLast]
    omega

/-- `OpH5WriterBigDataset.execute` as a trace: record `numSlicings`,
perform the initial `min(10, len(slicings))` submissions, then run the
streaming loop with `counter = 0`. -/
def executeTrace (slicings : List α) : List (TraceEntry α) :=
  let pa := popMany (min 10 slicings.length) slicings []
  streamTrace pa.1 pa.2 0 slicings.length

/-- The order in which tiles are written to the destination dataset. -/
def executeWrites (slicings : List α) : List α :=
  (executeTrace slicings).map (·.written)

/-- The order in which fetch requests are submitted: the initial
`min(10, len(slicings))` submissions followed by the in-loop ones. -/
def executeSubmitOrder (slicings : List α) : List α :=
  (popMany (min 10 slicings.length) slicings []).2 ++
    (executeTrace slicings).filterMap (·.submitted)

/-- The full progress-signal sequence of `OpH5WriterBigDataset.execute`:
`self.progressSignal(0)` up front, one emission per loop iteration, and
`self.progressSignal(100)` at the end. -/
def executeProgress (slicings : List α) : List Nat :=
  0 :: (executeTrace slicings).map (·.progress) ++ [100]

/-- The full progress-signal sequence of `OpStackToH5Writer.execute`:
`progressSignal(0)`, then `progressSignal(z*100/numImages)` per z-slice,
then `progressSignal(100)`. -/
def opStackToH5Progress (numImages : Nat) : List Nat :=
  0 :: (List.range numImages).map (fun z => z * 100 / numImages) ++ [100]

/-! ### Glob expansion (C8) -/

lemma foldl_append_eq_flatMap (f : α → List β) :
    ∀ (l : List α) (acc : List β),
      l.foldl (fun acc g => acc ++ f g) acc = acc ++ l.flatMap f
  | [], acc => by simp
  | g :: l, acc => by
      rw [List.foldl_cons, foldl_append_eq_flatMap f l (acc ++ f g)]
      simp

/-- C8: for every pattern-list string (patterns joined by the delimiter
"//") and every filesystem (represented by the glob-expansion function
`globFn`), the file list built by `OpStackLoader.setupOutputs` — the
`+=` loop over `sorted(globStrings.split("//"))` — equals the list
described by the spec: sort the pattern texts lexicographically, expand
each pattern, sort each pattern's matches lexicographically, and
concatenate the groups in sorted-pattern order. -/
theorem fileNameList_eq_spec (globStrings : String)
    (globFn : String → List String) :
    fileNameList globStrings globFn = specOrderedFileList globStrings globFn := by
  unfold fileNameList specOrderedFileList
  rw [foldl_append_eq_flatMap]
  simp

/-! ### Channel-count computation (C9) -/

/-- C9 counterexample: for a source whose AxisTags lack a channel axis
(here `txyz` with shape `[1,2,3,4]`), `OpStackToH5Writer` falls back to
`numChannels = 1`, but `OpH5WriterBigDataset` does NOT use 1: its
unguarded `dataShape[axistags.index('c')]` indexes out of range (an
`IndexError`, modelled as `none`).  The claim that BOTH writers use
`numChannels = 1` is therefore false. -/
theorem numChannelsBigWriter_missing_channel :
    numChannelsBigWriter [Axis.t, Axis.x, Axis.y, Axis.z] [1, 2, 3, 4] = none ∧
      numChannelsStackWriter [Axis.t, Axis.x, Axis.y, Axis.z] [1, 2, 3, 4] = 1 ∧
      numChannelsBigWriter [Axis.t, Axis.x, Axis.y, Axis.z] [1, 2, 3, 4] ≠
        some 1 := by
  refine ⟨rfl, rfl, ?_⟩
  decide

/-- C9 (amended): with `len(Shape) = len(AxisTags)`, when the channel
axis is absent `OpStackToH5Writer.execute` uses `numChannels = 1` while
`OpH5WriterBigDataset.setupOutputs` fails with an index error (`none`);
when the channel axis is present both use the Shape extent at the
channel axis. -/
theorem numChannels_channel_axis (tags : List Axis) (shape : List Nat)
    (hlen : shape.length = tags.length) :
    (Axis.c ∉ tags →
        numChannelsStackWriter tags shape = 1 ∧
          numChannelsBigWriter tags shape = none) ∧
      (Axis.c ∈ tags →
        numChannelsStackWriter tags shape =
            shape.getD (tags.indexOf Axis.c) 0 ∧
          numChannelsBigWriter tags shape =
            some (shape.getD (tags.indexOf Axis.c) 0)) := by
  constructor
  · intro hnot
    have hidx : tags.indexOf Axis.c = tags.length :=
      List.indexOf_eq_length.mpr hnot
    constructor
    · unfold numChannelsStackWriter
      rw [hidx, if_pos (le_of_eq hlen)]
    · unfold numChannelsBigWriter
      rw [hidx]
      exact List.getElem?_eq_none (le_of_eq hlen)
  · intro hmem
    have hidx : tags.indexOf Axis.c < tags.length :=
      List.indexOf_lt_length.mpr hmem
    have hidx' : tags.indexOf Axis.c < shape.length := by omega
    constructor
    · unfold numChannelsStackWriter
      rw [if_neg (by omega)]
    · unfold numChannelsBigWriter
      simp [List.getD_eq_getElem?_getD, List.getElem?_eq_getElem hidx']

theorem numChannels_channel_axis_witness :
    ([1, 3] : List Nat).length = ([Axis.t, Axis.c] : List Axis).length ∧
      ((Axis.c ∉ [Axis.t, Axis.c] →
          numChannelsStackWriter [Axis.t, Axis.c] [1, 3] = 1 ∧
            numChannelsBigWriter [Axis.t, Axis.c] [1, 3] = none) ∧
        (Axis.c ∈ [Axis.t, Axis.c] →
          numChannelsStackWriter [Axis.t, Axis.c] [1, 3] =
              ([1, 3] : List Nat).getD (([Axis.t, Axis.c] : List Axis).indexOf Axis.c) 0 ∧
            numChannelsBigWriter [Axis.t, Axis.c] [1, 3] =
              some (([1, 3] : List Nat).getD
                (([Axis.t, Axis.c] : List Axis).indexOf Axis.c) 0))) :=
  ⟨rfl, numChannels_channel_axis [Axis.t, Axis.c] [1, 3] rfl⟩

/-! ### Stack-reader shape check (C7) -/

lemma stackLoadLoop_written (ref : Nat × Nat × Nat) :
    ∀ (l : List ((Nat × Nat × Nat) × α)) (acc : List α),
      (stackLoadLoop ref l acc).1 =
        acc ++ (l.takeWhile (fun f => decide (f.1 = ref))).map Prod.snd
  | [], acc => by simp [stackLoadLoop]
  | (s, d) :: rest, acc => by
      by_cases h : s = ref
      · rw [stackLoadLoop, if_pos h, stackLoadLoop_written ref rest (acc ++ [d])]
        simp [List.takeWhile, h]
      · rw [stackLoadLoop, if_neg h]
        simp [List.takeWhile, h]

lemma stackLoadLoop_error (ref : Nat × Nat × Nat) :
    ∀ (l : List ((Nat × Nat × Nat) × α)) (acc : List α),
      (∃ f ∈ l, f.1 ≠ ref) →
      (stackLoadLoop ref l acc).2 = some "not all files have the same shape"
  | [], _acc, h => by simp at h
  | (s, d) :: rest, acc, h => by
      by_cases hs : s = ref
      · rw [stackLoadLoop, if_pos hs]
        refine stackLoadLoop_error ref rest (acc ++ [d]) ?_
        obtain ⟨f, hf, hne⟩ := h
        rcases List.mem_cons.mp hf with heq | hmem
        · exact absurd (by rw [heq]; exact hs) hne
        · exact ⟨f, hmem, hne⟩
      · rw [stackLoadLoop, if_neg hs]

/-- C7: for every read ROI `[zstart, zstop)` on the virtual stack, if any
touched file's probed shape differs from the reference shape, the read
fails with the shape-mismatch error (`RuntimeError('not all files have
the same shape')`); the result block contains exactly the slices of the
files before the first mismatch, and every written slice comes from a
file whose shape equals the reference — in particular no mismatching
file's data is written (the shape check precedes the copy). -/
theorem opStackLoaderRead_shape_mismatch (ref : Nat × Nat × Nat)
    (files : List ((Nat × Nat × Nat) × α)) (zstart zstop : Nat)
    (hmm : ∃ f ∈ (files.drop zstart).take (zstop - zstart), f.1 ≠ ref) :
    (opStackLoaderRead ref files zstart zstop).2 =
        some "not all files have the same shape" ∧
      (opStackLoaderRead ref files zstart zstop).1 =
        (((files.drop zstart).take (zstop - zstart)).takeWhile
            (fun f => decide (f.1 = ref))).map Prod.snd ∧
      ∀ f ∈ ((files.drop zstart).take (zstop - zstart)).takeWhile
          (fun f => decide (f.1 = ref)), f.1 = ref := by
  refine ⟨stackLoadLoop_error ref _ [] hmm, ?_, ?_⟩
  · have h := stackLoadLoop_written (α := α) ref
      ((files.drop zstart).take (zstop - zstart)) []
    simpa using h
  · intro f hf
    have := List.mem_takeWhile_imp hf
    simpa using this

/-- Concrete stack fixture: the probed reference shape is `(2,2,1)` and
the second file's shape `(3,2,1)` differs. -/
def mismatchFiles : List ((Nat × Nat × Nat) × Nat) :=
  [((2, 2, 1), 10), ((3, 2, 1), 20)]

theorem opStackLoaderRead_shape_mismatch_witness :
    (∃ f ∈ (mismatchFiles.drop 0).take (2 - 0),
        f.1 ≠ ((2, 2, 1) : Nat × Nat × Nat)) ∧
      ((opStackLoaderRead (2, 2, 1) mismatchFiles 0 2).2 =
          some "not all files have the same shape" ∧
        (opStackLoaderRead (2, 2, 1) mismatchFiles 0 2).1 =
          (((mismatchFiles.drop 0).take (2 - 0)).takeWhile
              (fun f => decide (f.1 = ((2, 2, 1) : Nat × Nat × Nat)))).map
            Prod.snd ∧
        ∀ f ∈ ((mismatchFiles.drop 0).take (2 - 0)).takeWhile
            (fun f => decide (f.1 = ((2, 2, 1) : Nat × Nat × Nat))),
          f.1 = ((2, 2, 1) : Nat × Nat × Nat)) :=
  ⟨by decide,
    opStackLoaderRead_shape_mismatch (2, 2, 1) mismatchFiles 0 2 (by decide)⟩

/-! ### Chunk-shape byte budget (C3) -/

lemma cbrtAux_cube_le (n : Nat) :
    ∀ fuel, cbrtAux n fuel * cbrtAux n fuel * cbrtAux n fuel ≤ n
  | 0 => by simp [cbrtAux]
  | fuel + 1 => by
      rw [cbrtAux]
      by_cases h : (fuel + 1) * (fuel + 1) * (fuel + 1) ≤ n
      · rw [if_pos h]; exact h
      · rw [if_neg h]; exact cbrtAux_cube_le n fuel

lemma le_cbrtAux (n k : Nat) :
    ∀ fuel, k ≤ fuel → k * k * k ≤ n → k ≤ cbrtAux n fuel
  | 0, hk, _ => by omega
  | fuel + 1, hk, hkn => by
      rw [cbrtAux]
      by_cases h : (fuel + 1) * (fuel + 1) * (fuel + 1) ≤ n
      · rw [if_pos h]; exact hk
      · rw [if_neg h]
        have hklt : k ≤ fuel := by
          by_contra hgt
          have hk1 : k = fuel + 1 := by omega
          rw [hk1] at hkn
          exact h hkn
        exact le_cbrtAux n k fuel hklt hkn

lemma natCbrt_cube_le (n : Nat) : natCbrt n * natCbrt n * natCbrt n ≤ n :=
  cbrtAux_cube_le n _

lemma one_le_natCbrt (n : Nat) (h : 1 ≤ n) : 1 ≤ natCbrt n :=
  le_cbrtAux n 1 _ (by omega) (by omega)

lemma sublist_map_prod_dvd (f : Axis → Nat) {l l' : List Axis}
    (h : List.Sublist l l') : (l.map f).prod ∣ (l'.map f).prod := by
  induction h with
  | slnil => simp
  | cons a _h ih => simpa using ih.mul_left (f a)
  | cons₂ a _h ih => simpa using mul_dvd_mul_left (f a) ih

lemma subperm_map_prod_dvd (f : Axis → Nat) {l l' : List Axis}
    (h : List.Subperm l l') : (l.map f).prod ∣ (l'.map f).prod := by
  obtain ⟨m, hperm, hsub⟩ := h
  have heq : (m.map f).prod = (l.map f).prod := (hperm.map f).prod_eq
  rw [show (l.map f).prod = (m.map f).prod from heq.symm]
  exact sublist_map_prod_dvd f hsub

/-- The whole axis alphabet. -/
def axisUniv : List Axis := [Axis.t, Axis.x, Axis.y, Axis.z, Axis.c]

lemma prod_chunkDims_le (nc db : Nat) (tags : List Axis)
    (hone : ∀ a : Axis, 1 ≤ chunkDims nc db a) (hnodup : tags.Nodup) :
    (tags.map (chunkDims nc db)).prod ≤ (axisUniv.map (chunkDims nc db)).prod := by
  have hsub : tags ⊆ axisUniv := by
    intro a _
    cases a <;> simp [axisUniv]
  have hsp : List.Subperm tags axisUniv := hnodup.subperm hsub
  refine Nat.le_of_dvd ?_ (subperm_map_prod_dvd _ hsp)
  have : ∀ a ∈ axisUniv.map (chunkDims nc db), 0 < a := by
    intro v hv
    obtain ⟨a, _, rfl⟩ := List.mem_map.mp hv
    exact hone a
  exact List.prod_pos this

lemma chunkShape_prod_le_map (nc db : Nat) :
    ∀ (tags : List Axis) (shape : List Nat),
      (∀ a : Axis, 1 ≤ chunkDims nc db a) →
      (chunkShape nc db tags shape).prod ≤ (tags.map (chunkDims nc db)).prod
  | [], _, _ => by simp [chunkShape]
  | _a :: _tags, [], hone => by
      simp only [chunkShape, List.zip_nil_right, List.map_nil, List.prod_nil,
        List.map_cons, List.prod_cons]
      refine Nat.mul_pos (hone _) (List.prod_pos ?_)
      intro v hv
      obtain ⟨b, _, rfl⟩ := List.mem_map.mp hv
      exact hone b
  | a :: tags, s :: shape, hone => by
      simp only [chunkShape, List.zip_cons_cons, List.map_cons, List.prod_cons]
      exact Nat.mul_le_mul (min_le_left _ _)
        (chunkShape_prod_le_map nc db tags shape hone)

/-- C3 counterexample: with `numChannels = 300001 ≥ 1`, `dtypeBytes = 1
≥ 1`, axes `(t, c)` and Shape `(1, 300001)` (a legal key-unique AxisTags
with matching Shape), the planner's clamped chunk shape is
`(1, 300001)`, whose byte size `300001` exceeds the 300000-byte budget:
`cubeDim = 0` zeroes only the spatial targets, and the code's own assert
checks the pre-clamp `x*y*z*c` product (which is 0), not the product
over the axes actually present.  The claimed post-clamp invariant is
therefore false. -/
theorem chunkShape_budget_violation :
    (1 ≤ 300001 ∧ 1 ≤ 1) ∧
      ([Axis.t, Axis.c] : List Axis).Nodup ∧
      300000 < (chunkShape 300001 1 [Axis.t, Axis.c] [1, 300001]).prod * 1 := by
  refine ⟨⟨by omega, le_refl 1⟩, by decide, ?_⟩
  have h1 : cubeDim 300001 1 = 0 := by decide
  have h2 : chunkShape 300001 1 [Axis.t, Axis.c] [1, 300001] = [1, 300001] := by
    simp [chunkShape, chunkDims, axisUniv]
  rw [h2]
  decide

/-- C3 (amended): the post-clamp budget invariant
`∏ chunk extents * dtypeBytes ≤ 300000` holds for every key-unique
AxisTags and every Shape provided additionally
`numChannels * dtypeBytes ≤ 300000` (equivalently `cubeDim ≥ 1`); the
original claim, quantified over all `numChannels ≥ 1`, is false when
`numChannels * dtypeBytes` alone exceeds the budget and the axis list
omits spatial axes. -/
theorem chunkShape_budget (nc db : Nat) (tags : List Axis)
    (shape : List Nat) (hnc : 1 ≤ nc) (hdb : 1 ≤ db)
    (hnodup : tags.Nodup) (hbudget : nc * db ≤ 300000) :
    (chunkShape nc db tags shape).prod * db ≤ 300000 := by
  have hpos : 0 < nc * db := Nat.mul_pos hnc hdb
  have hq : 1 ≤ 300000 / (nc * db) := (Nat.one_le_div_iff hpos).mpr hbudget
  have hcd : 1 ≤ cubeDim nc db := one_le_natCbrt _ hq
  have hone : ∀ a : Axis, 1 ≤ chunkDims nc db a := by
    intro a
    cases a <;> simp [chunkDims] <;> omega
  have h1 : (chunkShape nc db tags shape).prod ≤
      (tags.map (chunkDims nc db)).prod :=
    chunkShape_prod_le_map nc db tags shape hone
  have h2 : (tags.map (chunkDims nc db)).prod ≤
      (axisUniv.map (chunkDims nc db)).prod :=
    prod_chunkDims_le nc db tags hone hnodup
  have h3 : (axisUniv.map (chunkDims nc db)).prod =
      cubeDim nc db * cubeDim nc db * cubeDim nc db * nc := by
    simp [axisUniv, chunkDims]
    ring
  have h4 : cubeDim nc db * cubeDim nc db * cubeDim nc db ≤
      300000 / (nc * db) := natCbrt_cube_le _
  calc (chunkShape nc db tags shape).prod * db
      ≤ (cubeDim nc db * cubeDim nc db * cubeDim nc db * nc) * db := by
        refine Nat.mul_le_mul_right db ?_
        omega
    _ = (cubeDim nc db * cubeDim nc db * cubeDim nc db) * (nc * db) := by ring
    _ ≤ (300000 / (nc * db)) * (nc * db) := Nat.mul_le_mul_right _ h4
    _ ≤ 300000 := Nat.div_mul_le_self _ _

theorem chunkShape_budget_witness :
    (1 ≤ 3 ∧ 1 ≤ 1 ∧
        ([Axis.t, Axis.x, Axis.y, Axis.z, Axis.c] : List Axis).Nodup ∧
        3 * 1 ≤ 300000) ∧
      (chunkShape 3 1 [Axis.t, Axis.x, Axis.y, Axis.z, Axis.c]
          [1, 50, 50, 8, 3]).prod * 1 ≤ 300000 :=
  ⟨⟨by omega, by omega, by decide, by omega⟩,
    chunkShape_budget 3 1 [Axis.t, Axis.x, Axis.y, Axis.z, Axis.c]
      [1, 50, 50, 8, 3] (by omega) (by omega) (by decide) (by omega)⟩

/-! ### The bounded streaming loop (C2, C4, C5, C6, C10) -/

lemma streamTrace_nil_active (pending : List α) (c t : Nat) :
    streamTrace pending [] c t = [] := by
  simp only [streamTrace]

lemma streamTrace_cons_nil (a : α) (as : List α) (c t : Nat) :
    streamTrace ([] : List α) (a :: as) c t =
      ⟨a, as.length + 1, none, 100 * c / t⟩ :: streamTrace [] as (c + 1) t := by
  simp only [streamTrace, List.getLast?_nil]

lemma streamTrace_cons_concat (p' : List α) (q a : α) (as : List α)
    (c t : Nat) :
    streamTrace (p' ++ [q]) (a :: as) c t =
      ⟨a, as.length + 1, some q, 100 * c / t⟩ ::
        streamTrace p' (as ++ [q]) (c + 1) t := by
  rw [streamTrace]
  split
  next heq => exact absurd heq (by simp)
  next p heq =>
    have hpq : p = q := by
      rw [List.getLast?_concat] at heq
      exact (Option.some_inj.mp heq).symm
    rw [hpq, List.dropLast_concat]

lemma popMany_concat (k : Nat) (l : List α) (a : α) (acc : List α) :
    popMany (k + 1) (l ++ [a]) acc = popMany k l (acc ++ [a]) := by
  simp only [popMany, List.getLast?_concat, List.dropLast_concat]

lemma popMany_spec :
    ∀ (k : Nat) (l acc : List α), k ≤ l.length →
      popMany k l acc =
        (l.take (l.length - k), acc ++ (l.drop (l.length - k)).reverse)
  | 0, l, acc, _h => by simp [popMany]
  | k + 1, l, acc, h => by
      rcases List.eq_nil_or_concat l with rfl | ⟨l', a, rfl⟩
      · simp at h
      · simp only [List.concat_eq_append] at h ⊢
        rw [popMany_concat]
        have hlen : (l' ++ [a]).length = l'.length + 1 := by simp
        have hk : k ≤ l'.length := by omega
        rw [popMany_spec k l' (acc ++ [a]) hk]
        have hm : (l' ++ [a]).length - (k + 1) = l'.length - k := by omega
        refine Prod.ext ?_ ?_
        · simp only [hm]
          rw [List.take_append_of_le_length (by omega)]
        · simp only [hm]
          rw [List.drop_append_of_le_length (by omega)]
          simp

lemma streamTrace_writes_aux (N : Nat) :
    ∀ (pending active : List α) (c t : Nat),
      pending.length + active.length ≤ N →
      (active = [] → pending = []) →
      (streamTrace pending active c t).map (·.written) =
        active ++ pending.reverse := by
  induction N with
  | zero =>
      intro pending active c t hN hinv
      have ha : active = [] := List.length_eq_zero.mp (by omega)
      subst ha
      rw [hinv rfl, streamTrace_nil_active]
      simp
  | succ N ih =>
      intro pending active c t hN hinv
      cases active with
      | nil =>
          rw [hinv rfl, streamTrace_nil_active]
          simp
      | cons a as =>
          rcases List.eq_nil_or_concat pending with rfl | ⟨p', q, hp⟩
          · rw [streamTrace_cons_nil]
            simp only [List.map_cons]
            rw [ih [] as (c + 1) t (by simp only [List.concat_eq_append, List.length_append, List.length_cons, List.length_nil] at hN ⊢; omega) (fun _ => rfl)]
            simp
          · subst hp
            simp only [List.concat_eq_append]
            rw [streamTrace_cons_concat]
            simp only [List.map_cons]
            rw [ih p' (as ++ [q]) (c + 1) t (by simp only [List.concat_eq_append, List.length_append, List.length_cons, List.length_nil] at hN ⊢; omega) (by simp)]
            simp

lemma streamTrace_writes (pending active : List α) (c t : Nat)
    (hinv : active = [] → pending = []) :
    (streamTrace pending active c t).map (·.written) =
      active ++ pending.reverse :=
  streamTrace_writes_aux (pending.length + active.length) pending active c t
    le_rfl hinv

lemma streamTrace_submitted_aux (N : Nat) :
    ∀ (pending active : List α) (c t : Nat),
      pending.length + active.length ≤ N →
      (active = [] → pending = []) →
      (streamTrace pending active c t).filterMap (·.submitted) =
        pending.reverse := by
  induction N with
  | zero =>
      intro pending active c t hN hinv
      have ha : active = [] := List.length_eq_zero.mp (by omega)
      subst ha
      rw [hinv rfl, streamTrace_nil_active]
      simp
  | succ N ih =>
      intro pending active c t hN hinv
      cases active with
      | nil =>
          rw [hinv rfl, streamTrace_nil_active]
          simp
      | cons a as =>
          rcases List.eq_nil_or_concat pending with rfl | ⟨p', q, hp⟩
          · rw [streamTrace_cons_nil]
            simp only [List.filterMap_cons]
            rw [ih [] as (c + 1) t (by simp only [List.concat_eq_append, List.length_append, List.length_cons, List.length_nil] at hN ⊢; omega) (fun _ => rfl)]
          · subst hp
            simp only [List.concat_eq_append]
            rw [streamTrace_cons_concat]
            simp only [List.filterMap_cons]
            rw [ih p' (as ++ [q]) (c + 1) t (by simp only [List.concat_eq_append, List.length_append, List.length_cons, List.length_nil] at hN ⊢; omega) (by simp)]
            simp

lemma streamTrace_submitted (pending active : List α) (c t : Nat)
    (hinv : active = [] → pending = []) :
    (streamTrace pending active c t).filterMap (·.submitted) =
      pending.reverse :=
  streamTrace_submitted_aux (pending.length + active.length) pending active c t
    le_rfl hinv

lemma streamTrace_activeLen_aux (N : Nat) :
    ∀ (pending active : List α) (c t : Nat),
      pending.length + active.length ≤ N →
      ∀ e ∈ streamTrace pending active c t, e.activeLen ≤ active.length := by
  induction N with
  | zero =>
      intro pending active c t hN
      have ha : active = [] := List.length_eq_zero.mp (by omega)
      subst ha
      rw [streamTrace_nil_active]
      simp
  | succ N ih =>
      intro pending active c t hN
      cases active with
      | nil =>
          rw [streamTrace_nil_active]
          simp
      | cons a as =>
          rcases List.eq_nil_or_concat pending with rfl | ⟨p', q, hp⟩
          · rw [streamTrace_cons_nil]
            intro e he
            rcases List.mem_cons.mp he with rfl | hmem
            · simp
            · have := ih [] as (c + 1) t (by simp only [List.concat_eq_append, List.length_append, List.length_cons, List.length_nil] at hN ⊢; omega) e hmem
              simp only [List.length_cons]
              omega
          · subst hp
            simp only [List.concat_eq_append]
            rw [streamTrace_cons_concat]
            intro e he
            rcases List.mem_cons.mp he with rfl | hmem
            · simp
            · have := ih p' (as ++ [q]) (c + 1) t
                (by simp only [List.concat_eq_append, List.length_append, List.length_cons, List.length_nil] at hN ⊢; omega) e hmem
              simp only [List.length_append, List.length_cons, List.length_nil] at this ⊢
              omega

lemma streamTrace_activeLen (pending active : List α) (c t : Nat) :
    ∀ e ∈ streamTrace pending active c t, e.activeLen ≤ active.length :=
  streamTrace_activeLen_aux (pending.length + active.length) pending active c t
    le_rfl

lemma streamTrace_progress_aux (N : Nat) :
    ∀ (pending active : List α) (c t : Nat),
      pending.length + active.length ≤ N →
      (active = [] → pending = []) →
      (streamTrace pending active c t).map (·.progress) =
        (List.range (pending.length + active.length)).map
          (fun i => 100 * (c + i) / t) := by
  induction N with
  | zero =>
      intro pending active c t hN hinv
      have ha : active = [] := List.length_eq_zero.mp (by omega)
      subst ha
      rw [hinv rfl, streamTrace_nil_active]
      simp
  | succ N ih =>
      intro pending active c t hN hinv
      cases active with
      | nil =>
          rw [hinv rfl, streamTrace_nil_active]
          simp
      | cons a as =>
          rcases List.eq_nil_or_concat pending with rfl | ⟨p', q, hp⟩
          · rw [streamTrace_cons_nil]
            simp only [List.map_cons]
            rw [ih [] as (c + 1) t (by simp only [List.concat_eq_append, List.length_append, List.length_cons, List.length_nil] at hN ⊢; omega) (fun _ => rfl)]
            simp only [List.length_nil, List.length_cons, Nat.zero_add]
            rw [List.range_succ_eq_map]
            simp only [List.map_cons, List.map_map]
            refine congrArg₂ _ (by simp) ?_
            refine List.map_congr_left ?_
            intro i _
            simp only [Function.comp_apply]
            congr 1
            omega
          · subst hp
            simp only [List.concat_eq_append]
            rw [streamTrace_cons_concat]
            simp only [List.map_cons]
            rw [ih p' (as ++ [q]) (c + 1) t (by simp only [List.concat_eq_append, List.length_append, List.length_cons, List.length_nil] at hN ⊢; omega) (by simp)]
            simp only [List.length_append, List.length_cons, List.length_nil,
              Nat.zero_add]
            have hn : (p'.length + 1) + (as.length + 1) =
                (p'.length + (as.length + 1)) + 1 := by omega
            rw [hn, List.range_succ_eq_map]
            simp only [List.map_cons, List.map_map]
            refine congrArg₂ _ (by simp) ?_
            refine List.map_congr_left ?_
            intro i _
            simp only [Function.comp_apply]
            congr 1
            omega

lemma streamTrace_progress (pending active : List α) (c t : Nat)
    (hinv : active = [] → pending = []) :
    (streamTrace pending active c t).map (·.progress) =
      (List.range (pending.length + active.length)).map
        (fun i => 100 * (c + i) / t) :=
  streamTrace_progress_aux (pending.length + active.length) pending active c t
    le_rfl hinv

lemma executeTrace_inv (slicings : List α) :
    executeTrace slicings =
      streamTrace (slicings.take (slicings.length - min 10 slicings.length))
        ((slicings.drop (slicings.length - min 10 slicings.length)).reverse)
        0 slicings.length ∧
      ((slicings.drop (slicings.length - min 10 slicings.length)).reverse = [] →
        slicings.take (slicings.length - min 10 slicings.length) = []) := by
  have hk : min 10 slicings.length ≤ slicings.length := Nat.min_le_right _ _
  constructor
  · unfold executeTrace
    rw [popMany_spec (min 10 slicings.length) slicings [] hk]
    simp
  · intro hnil
    have hdrop : slicings.drop (slicings.length - min 10 slicings.length) = [] := by
      simpa using congrArg List.reverse hnil
    have hlen := congrArg List.length hdrop
    simp only [List.length_drop, List.length_nil] at hlen
    have hzero : slicings.length = 0 := by omega
    have : slicings = [] := List.length_eq_zero.mp hzero
    rw [this]
    simp

lemma executeWrites_eq_reverse (slicings : List α) :
    executeWrites slicings = slicings.reverse := by
  obtain ⟨htr, hinv⟩ := executeTrace_inv slicings
  unfold executeWrites
  rw [htr, streamTrace_writes _ _ _ _ hinv]
  rw [show ((slicings.drop (slicings.length - min 10 slicings.length)).reverse ++
      (slicings.take (slicings.length - min 10 slicings.length)).reverse) =
      ((slicings.take (slicings.length - min 10 slicings.length)) ++
        (slicings.drop (slicings.length - min 10 slicings.length))).reverse from
    (List.reverse_append _ _).symm]
  rw [List.take_append_drop]

lemma executeSubmitOrder_eq_reverse (slicings : List α) :
    executeSubmitOrder slicings = slicings.reverse := by
  obtain ⟨htr, hinv⟩ := executeTrace_inv slicings
  have hk : min 10 slicings.length ≤ slicings.length := Nat.min_le_right _ _
  unfold executeSubmitOrder
  rw [popMany_spec (min 10 slicings.length) slicings [] hk]
  rw [htr, streamTrace_submitted _ _ _ _ hinv]
  simp only [List.nil_append]
  rw [show ((slicings.drop (slicings.length - min 10 slicings.length)).reverse ++
      (slicings.take (slicings.length - min 10 slicings.length)).reverse) =
      ((slicings.take (slicings.length - min 10 slicings.length)) ++
        (slicings.drop (slicings.length - min 10 slicings.length))).reverse from
    (List.reverse_append _ _).symm]
  rw [List.take_append_drop]

/-- C2 counterexample: for the deterministic tile list of Shape `[2]`,
ChunkShape `[1]`, AxisTags `[t]` — two tiles in generation order
`[([0],[1]), ([1],[2])]` — the writer writes the tiles in the opposite
order: `slicings.pop()` pops from the END of the Python list, so the
submission (and hence FIFO write) order is the reverse of the tile-list
generation order, refuting the claim that tiles are submitted and
written in generation order. -/
theorem executeWrites_not_generation_order :
    executeWrites (computeRequestSlicings [2] [1] [Axis.t]) ≠
        computeRequestSlicings [2] [1] [Axis.t] ∧
      executeSubmitOrder (computeRequestSlicings [2] [1] [Axis.t]) ≠
        computeRequestSlicings [2] [1] [Axis.t] := by
  rw [executeWrites_eq_reverse, executeSubmitOrder_eq_reverse]
  constructor <;> decide

/-- C2 (amended): tiles are submitted in REVERSE tile-list order — the
initial `min(10, N)` submissions take the last `min(10, N)` tiles from
the end of the list, and each subsequent submission takes the last
remaining pending tile — and tiles are written in that same reverse
order (the FIFO active queue makes write order equal submission order,
independent of fetch completion order). -/
theorem executeWrites_submit_reverse (slicings : List α) :
    executeWrites slicings = slicings.reverse ∧
      executeSubmitOrder slicings = slicings.reverse :=
  ⟨executeWrites_eq_reverse slicings, executeSubmitOrder_eq_reverse slicings⟩

/-- C4: the streaming loop of `OpH5WriterBigDataset.execute` keeps at
most `min(10, N)` fetch requests in flight: every in-flight count
recorded while blocking is at most `min(10, N)`, exactly `min(10, N)`
requests are created by the initial submission loop, and the number of
in-loop submissions is at most the number of completions (at most one
new request per completed request, by the loop structure). -/
theorem executeTrace_window (slicings : List α) :
    (∀ e ∈ executeTrace slicings, e.activeLen ≤ min 10 slicings.length) ∧
      (popMany (min 10 slicings.length) slicings []).2.length =
        min 10 slicings.length ∧
      ((executeTrace slicings).filterMap (·.submitted)).length ≤
        (executeTrace slicings).length := by
  have hk : min 10 slicings.length ≤ slicings.length := Nat.min_le_right _ _
  obtain ⟨htr, _hinv⟩ := executeTrace_inv slicings
  refine ⟨?_, ?_,
    List.length_filterMap_le (fun e : TraceEntry α => e.submitted)
      (executeTrace slicings)⟩
  · intro e he
    rw [htr] at he
    have := streamTrace_activeLen _ _ _ _ e he
    simp only [List.length_reverse, List.length_drop] at this
    omega
  · rw [popMany_spec (min 10 slicings.length) slicings [] hk]
    simp only [List.nil_append, List.length_reverse, List.length_drop]
    omega

lemma executeTrace_progress_eq (slicings : List α) :
    (executeTrace slicings).map (·.progress) =
      (List.range slicings.length).map
        (fun k => 100 * k / slicings.length) := by
  obtain ⟨htr, hinv⟩ := executeTrace_inv slicings
  have hk : min 10 slicings.length ≤ slicings.length := Nat.min_le_right _ _
  rw [htr, streamTrace_progress _ _ _ _ hinv]
  have hlen : (slicings.take (slicings.length - min 10 slicings.length)).length +
      ((slicings.drop (slicings.length - min 10 slicings.length)).reverse).length =
      slicings.length := by
    simp only [List.length_take, List.length_reverse, List.length_drop]
    omega
  rw [hlen]
  refine List.map_congr_left ?_
  intro i _
  simp

/-- C5 counterexample: with a single tile, the code's only loop emission
is `100*0/1 = 0` (the emission uses `counter` BEFORE it is incremented),
whereas the claim — progress `floor(100*completedCount/totalTiles)` with
`completedCount` including the just-completed tile — demands
`100*1/1 = 100` after the first completion. -/
theorem executeProgress_off_by_one :
    (executeTrace [(([0], [1]) : List Nat × List Nat)]).map (·.progress) =
        [0] ∧
      100 * 1 / 1 = 100 ∧ (0 : Nat) ≠ 100 := by
  rw [executeTrace_progress_eq]
  refine ⟨?_, rfl, by omega⟩
  decide

/-- C5 (amended): after the k-th completion (k = 1..N), the streaming
loop emits `floor(100*(k-1)/N)` — the count of tiles completed BEFORE
the current one — i.e. the i-th loop emission (i = 0..N-1) is
`floor(100*i/N)`, not `floor(100*(i+1)/N)`. -/
theorem executeProgress_formula (slicings : List α) :
    executeProgress slicings =
      0 :: (List.range slicings.length).map
          (fun k => 100 * k / slicings.length) ++ [100] := by
  unfold executeProgress
  rw [executeTrace_progress_eq]

/-- C6: for every run of either writer that completes, the progress
sequence starts with the emission 0 and its final emission is exactly
100: `OpH5WriterBigDataset.execute` calls `progressSignal(0)` before the
loop and `progressSignal(100)` after it, and `OpStackToH5Writer.execute`
likewise.  The loop structure — and hence the whole emission sequence —
does not depend on the order in which fetches complete, since the loop
always blocks on the oldest active request. -/
theorem progress_endpoints (slicings : List α) (numImages : Nat) :
    (executeProgress slicings).head? = some 0 ∧
      (executeProgress slicings).getLast? = some 100 ∧
      (opStackToH5Progress numImages).head? = some 0 ∧
      (opStackToH5Progress numImages).getLast? = some 100 := by
  refine ⟨rfl, ?_, rfl, ?_⟩
  · exact List.getLast?_concat _
  · exact List.getLast?_concat _

lemma chain'_map_progress (f : Nat → Nat) (hf : ∀ k, f k ≤ f (k + 1)) :
    ∀ (n a : Nat), (∀ k, k < a + n → f k ≤ 100) →
      List.Chain' (· ≤ ·) ((List.range' a n).map f ++ [100])
  | 0, a, _h => by simp
  | n + 1, a, h => by
      rw [List.range'_succ]
      simp only [List.map_cons, List.cons_append]
      rw [List.chain'_cons']
      refine ⟨?_, chain'_map_progress f hf n (a + 1) (fun k hk => h k (by omega))⟩
      intro b hb
      match n with
      | 0 =>
          simp at hb
          subst hb
          exact h a (by omega)
      | m + 1 =>
          rw [List.range'_succ] at hb
          simp at hb
          subst hb
          exact hf a

lemma mem_progress_le (f : Nat → Nat) (n : Nat)
    (h : ∀ k, k < n → f k ≤ 100) :
    ∀ v ∈ 0 :: (List.range n).map f ++ [100], v ≤ 100 := by
  intro v hv
  rcases List.mem_cons.mp hv with rfl | hv'
  · omega
  rcases List.mem_append.mp hv' with hm | hm
  · obtain ⟨k, hk, rfl⟩ := List.mem_map.mp hm
    exact h k (List.mem_range.mp hk)
  · simp at hm
    omega

/-- C10: for every run of either writer, the emitted progress values are
non-decreasing along the run and every emitted value lies in `[0, 100]`
(values are `Nat`, so 0 is a lower bound by construction). -/
theorem progress_monotone_bounded (slicings : List α) (numImages : Nat) :
    (List.Chain' (· ≤ ·) (executeProgress slicings) ∧
        ∀ v ∈ executeProgress slicings, v ≤ 100) ∧
      (List.Chain' (· ≤ ·) (opStackToH5Progress numImages) ∧
        ∀ v ∈ opStackToH5Progress numImages, v ≤ 100) := by
  have hbig : executeProgress slicings =
      0 :: (List.range slicings.length).map
          (fun k => 100 * k / slicings.length) ++ [100] := by
    unfold executeProgress
    rw [executeTrace_progress_eq]
  have hf1 : ∀ k, 100 * k / slicings.length ≤
      100 * (k + 1) / slicings.length := by
    intro k
    exact Nat.div_le_div_right (Nat.mul_le_mul_left 100 (by omega))
  have h100b : ∀ k, k < slicings.length →
      100 * k / slicings.length ≤ 100 := by
    intro k hk
    have h1 : 100 * k ≤ 100 * slicings.length :=
      Nat.mul_le_mul_left 100 hk.le
    have h2 : 100 * k / slicings.length ≤
        100 * slicings.length / slicings.length :=
      Nat.div_le_div_right h1
    have h3 : 100 * slicings.length / slicings.length ≤ 100 :=
      Nat.div_le_of_le_mul (by omega)
    omega
  have hf2 : ∀ z, z * 100 / numImages ≤ (z + 1) * 100 / numImages := by
    intro z
    exact Nat.div_le_div_right (Nat.mul_le_mul_right 100 (by omega))
  have h100s : ∀ z, z < numImages → z * 100 / numImages ≤ 100 := by
    intro z hz
    have h1 : z * 100 ≤ numImages * 100 := Nat.mul_le_mul_right 100 hz.le
    have h2 : z * 100 / numImages ≤ numImages * 100 / numImages :=
      Nat.div_le_div_right h1
    have h3 : numImages * 100 / numImages ≤ 100 :=
      Nat.div_le_of_le_mul (by omega)
    omega
  refine ⟨⟨?_, ?_⟩, ⟨?_, ?_⟩⟩
  · rw [hbig, List.range_eq_range', List.cons_append, List.chain'_cons']
    exact ⟨fun b _ => Nat.zero_le b,
      chain'_map_progress _ hf1 slicings.length 0
        (fun k hk => h100b k (by omega))⟩
  · rw [hbig]
    exact mem_progress_le _ _ h100b
  · unfold opStackToH5Progress
    rw [List.range_eq_range', List.cons_append, List.chain'_cons']
    exact ⟨fun b _ => Nat.zero_le b,
      chain'_map_progress _ hf2 numImages 0 (fun z hz => h100s z (by omega))⟩
  · unfold opStackToH5Progress
    exact mem_progress_le _ _ h100s

/-! ### Tile-list partition (C1) -/

lemma lt_pyCeil_iff {step : Nat} (h : 0 < step) (k stop : Nat) :
    k < (stop + step - 1) / step ↔ k * step < stop := by
  rw [Nat.lt_iff_add_one_le, Nat.le_div_iff_mul_le h, Nat.succ_mul]
  omega

lemma mem_pythonRange {stop step s : Nat} (h : 0 < step) :
    s ∈ pythonRange stop step ↔ ∃ k, s = k * step ∧ k * step < stop := by
  unfold pythonRange
  simp only [List.mem_map, List.mem_range]
  constructor
  · rintro ⟨k, hk, rfl⟩
    exact ⟨k, rfl, (lt_pyCeil_iff h k stop).mp hk⟩
  · rintro ⟨k, rfl, hk⟩
    exact ⟨k, (lt_pyCeil_iff h k stop).mpr hk, rfl⟩

lemma pythonRange_nodup (stop step : Nat) (h : 0 < step) :
    (pythonRange stop step).Nodup := by
  unfold pythonRange
  refine (List.nodup_range _).map ?_
  intro a b hab
  exact Nat.eq_of_mul_eq_mul_right h hab

lemma oneD_exists_unique {stop step p : Nat} (h : 0 < step) (hp : p < stop) :
    ∃! s, s ∈ pythonRange stop step ∧ s ≤ p ∧ p < min (s + step) stop := by
  refine ⟨p / step * step, ⟨?_, ?_, ?_⟩, ?_⟩
  · rw [mem_pythonRange h]
    exact ⟨p / step, rfl, lt_of_le_of_lt (Nat.div_mul_le_self p step) hp⟩
  · exact Nat.div_mul_le_self p step
  · refine lt_min ?_ hp
    have hmod := Nat.mod_lt p h
    have hdm := Nat.div_add_mod p step
    have hcomm : step * (p / step) = p / step * step := Nat.mul_comm _ _
    omega
  · rintro s ⟨hmem, hle, hlt⟩
    rw [mem_pythonRange h] at hmem
    obtain ⟨k, rfl, hks⟩ := hmem
    have hlt' : p < k * step + step := lt_of_lt_of_le hlt (min_le_left _ _)
    have hk : k = p / step := by
      refine (Nat.div_eq_of_lt_le hle ?_).symm
      rw [Nat.succ_mul]
      omega
    rw [hk]

lemma mem_prodLists : ∀ (ls : List (List Nat)) (p : List Nat),
    p ∈ prodLists ls ↔ List.Forall₂ (fun a l => a ∈ l) p ls
  | [], p => by
      simp only [prodLists, List.mem_singleton]
      constructor
      · rintro rfl
        exact List.Forall₂.nil
      · intro hf
        cases hf
        rfl
  | l :: ls, p => by
      simp only [prodLists, List.mem_flatMap, List.mem_map]
      constructor
      · rintro ⟨a, ha, s', hs', rfl⟩
        exact List.Forall₂.cons ha ((mem_prodLists ls s').mp hs')
      · intro hf
        rw [List.forall₂_cons_right_iff] at hf
        obtain ⟨a, s', ha, hs', rfl⟩ := hf
        exact ⟨a, ha, s', (mem_prodLists ls s').mpr hs', rfl⟩

lemma prodLists_nodup : ∀ ls : List (List Nat),
    (∀ l ∈ ls, l.Nodup) → (prodLists ls).Nodup
  | [], _ => by simp [prodLists]
  | l :: ls, h => by
      simp only [prodLists]
      rw [List.nodup_flatMap]
      refine ⟨?_, ?_⟩
      · intro a _
        refine (prodLists_nodup ls ?_).map ?_
        · intro x hx
          exact h x (List.mem_cons_of_mem _ hx)
        · intro u v huv
          exact List.tail_eq_of_cons_eq huv
      · have hln : l.Nodup := h l (List.mem_cons_self _ _)
        refine hln.imp_of_mem ?_
        intro a b _ _ hab
        intro z hza hzb
        simp only [Function.onFun, List.mem_map] at hza hzb
        obtain ⟨u, _, rfl⟩ := hza
        obtain ⟨v, _, hv⟩ := hzb
        exact hab (List.head_eq_of_cons_eq hv.symm)

lemma tileShift_length : ∀ (shape chunk : List Nat) (tags : List Axis),
    chunk.length = shape.length → tags.length = shape.length →
    (tileShift shape chunk tags).length = shape.length
  | [], _chunk, _tags, _h1, _h2 => by simp [tileShift]
  | sp :: shape, chunk, tags, h1, h2 => by
      cases chunk with
      | nil => simp at h1
      | cons ch chunk =>
        cases tags with
        | nil => simp at h2
        | cons a tags =>
            simp only [tileShift, List.length_cons]
            rw [tileShift_length shape chunk tags (by simpa using h1)
              (by simpa using h2)]

lemma one_le_multiplier (a : Axis) : 0 < multiplier a := by
  cases a <;> simp [multiplier]

lemma tileShift_pos : ∀ (shape chunk : List Nat) (tags : List Axis),
    (∀ s ∈ shape, 0 < s) → (∀ c ∈ chunk, 0 < c) →
    ∀ sh ∈ tileShift shape chunk tags, 0 < sh
  | [], _chunk, _tags, _hs, _hc => by simp [tileShift]
  | sp :: shape, chunk, tags, hs, hc => by
      cases chunk with
      | nil => simp [tileShift]
      | cons ch chunk =>
        cases tags with
        | nil => simp [tileShift]
        | cons a tags =>
            simp only [tileShift, List.mem_cons]
            rintro sh (rfl | hmem)
            · refine lt_min ?_ (hs sp (List.mem_cons_self _ _))
              exact Nat.mul_pos (hc ch (List.mem_cons_self _ _))
                (one_le_multiplier a)
            · exact tileShift_pos shape chunk tags
                (fun x hx => hs x (List.mem_cons_of_mem _ hx))
                (fun x hx => hc x (List.mem_cons_of_mem _ hx)) sh hmem

lemma memROI_tileStops_inBounds :
    ∀ (shape shift s p : List Nat), s.length = shape.length →
      memROI p s (tileStops s shift shape) = true → inBoundsB p shape = true
  | [], _shift, s, p, hlen, h => by
      have hs : s = [] := List.length_eq_zero.mp (by simpa using hlen)
      subst hs
      cases p with
      | nil => rfl
      | cons pi p => simp [memROI, tileStops] at h
  | sp :: shape, shift, s, p, hlen, h => by
      cases s with
      | nil => simp at hlen
      | cons s1 s =>
        cases shift with
        | nil =>
            cases p <;> simp [memROI, tileStops] at h
        | cons sh shift =>
            cases p with
            | nil => simp [memROI, tileStops] at h
            | cons pi p =>
                simp only [tileStops, memROI, Bool.and_eq_true,
                  decide_eq_true_iff] at h
                obtain ⟨⟨_h1, h2⟩, h3⟩ := h
                simp only [inBoundsB, Bool.and_eq_true, decide_eq_true_iff]
                refine ⟨lt_of_lt_of_le h2 (min_le_right _ _), ?_⟩
                exact memROI_tileStops_inBounds shape shift s p
                  (by simpa using hlen) h3

lemma zip_ranges_nodup : ∀ (shape shift : List Nat),
    (∀ sh ∈ shift, 0 < sh) →
    ∀ l ∈ List.zipWith pythonRange shape shift, l.Nodup
  | [], _shift, _h => by simp
  | _sp :: _shape, [], _h => by simp
  | sp :: shape, sh :: shift, h => by
      simp only [List.zipWith_cons_cons, List.mem_cons]
      rintro l (rfl | hl)
      · exact pythonRange_nodup _ _ (h sh (List.mem_cons_self _ _))
      · exact zip_ranges_nodup shape shift
          (fun x hx => h x (List.mem_cons_of_mem _ hx)) l hl

lemma exists_unique_tile_start :
    ∀ (shape shift p : List Nat), shift.length = shape.length →
      (∀ sh ∈ shift, 0 < sh) → inBoundsB p shape = true →
      ∃! s, s ∈ prodLists (List.zipWith pythonRange shape shift) ∧
        memROI p s (tileStops s shift shape) = true
  | [], shift, p, hlen, _hpos, hb => by
      have hsh : shift = [] := List.length_eq_zero.mp (by simpa using hlen)
      subst hsh
      have hp : p = [] := by
        cases p with
        | nil => rfl
        | cons a b => simp [inBoundsB] at hb
      subst hp
      refine ⟨[], ⟨?_, ?_⟩, ?_⟩
      · simp [prodLists]
      · rfl
      · rintro s ⟨hs, _⟩
        simpa [prodLists] using hs
  | sp :: shape, shift, p, hlen, hpos, hb => by
      cases shift with
      | nil => simp at hlen
      | cons sh shift =>
        cases p with
        | nil => simp [inBoundsB] at hb
        | cons pi p =>
            have hb1 : pi < sp ∧ inBoundsB p shape = true := by
              simpa [inBoundsB, Bool.and_eq_true, decide_eq_true_iff] using hb
            have hstep : 0 < sh := hpos sh (List.mem_cons_self _ _)
            obtain ⟨a₀, ⟨hamem, hale, halt⟩, hauniq⟩ :=
              oneD_exists_unique hstep hb1.1
            obtain ⟨s₀, ⟨hsmem, hsroi⟩, hsuniq⟩ :=
              exists_unique_tile_start shape shift p (by simpa using hlen)
                (fun x hx => hpos x (List.mem_cons_of_mem _ hx)) hb1.2
            refine ⟨a₀ :: s₀, ⟨?_, ?_⟩, ?_⟩
            · rw [List.zipWith_cons_cons, mem_prodLists]
              exact List.Forall₂.cons hamem ((mem_prodLists _ _).mp hsmem)
            · simp only [tileStops, memROI, Bool.and_eq_true,
                decide_eq_true_iff]
              exact ⟨⟨hale, halt⟩, hsroi⟩
            · rintro s ⟨hsmem', hsroi'⟩
              rw [List.zipWith_cons_cons, mem_prodLists,
                List.forall₂_cons_right_iff] at hsmem'
              obtain ⟨a, s'', ha, hs'', rfl⟩ := hsmem'
              simp only [tileStops, memROI, Bool.and_eq_true,
                decide_eq_true_iff] at hsroi'
              obtain ⟨⟨ha1, ha2⟩, hroi⟩ := hsroi'
              have hae : a = a₀ := hauniq a ⟨ha, ha1, ha2⟩
              have hse : s'' = s₀ :=
                hsuniq s'' ⟨(mem_prodLists _ _).mpr hs'', hroi⟩
              rw [hae, hse]

/-- C1: for every Shape, AxisTags and ChunkShape (with matching lengths
and positive extents, as required for Python's `range` step to be legal),
the tile list of `computeRequestSlicings` partitions the full extent
`[0, Shape)`: every in-bounds point lies in exactly one tile's ROI, every
point of every tile's ROI is in bounds (so the union is exactly the full
extent), and the tiles are pairwise disjoint.  Tile count and order are
deterministic by construction, `computeRequestSlicings` being a pure
function of `(Shape, ChunkShape, AxisTags)`. -/
theorem computeRequestSlicings_partition (shape chunk : List Nat)
    (tags : List Axis) (hclen : chunk.length = shape.length)
    (htlen : tags.length = shape.length) (hspos : ∀ s ∈ shape, 0 < s)
    (hcpos : ∀ c ∈ chunk, 0 < c) :
    (∀ p, inBoundsB p shape = true →
        ∃! r, r ∈ computeRequestSlicings shape chunk tags ∧
          memROI p r.1 r.2 = true) ∧
      (∀ r ∈ computeRequestSlicings shape chunk tags, ∀ p,
        memROI p r.1 r.2 = true → inBoundsB p shape = true) ∧
      (computeRequestSlicings shape chunk tags).Pairwise
        (fun r1 r2 => ∀ p, ¬(memROI p r1.1 r1.2 = true ∧
          memROI p r2.1 r2.2 = true)) := by
  have hdef : computeRequestSlicings shape chunk tags =
      (prodLists (List.zipWith pythonRange shape
          (tileShift shape chunk tags))).map
        (fun start =>
          (start, tileStops start (tileShift shape chunk tags) shape)) := rfl
  have hshlen : (tileShift shape chunk tags).length = shape.length :=
    tileShift_length shape chunk tags hclen htlen
  have hshpos : ∀ sh ∈ tileShift shape chunk tags, 0 < sh :=
    tileShift_pos shape chunk tags hspos hcpos
  have key : ∀ p, inBoundsB p shape = true →
      ∃! s, s ∈ prodLists (List.zipWith pythonRange shape
          (tileShift shape chunk tags)) ∧
        memROI p s (tileStops s (tileShift shape chunk tags) shape) = true :=
    fun p hp => exists_unique_tile_start shape _ p hshlen hshpos hp
  have hstartlen : ∀ s ∈ prodLists (List.zipWith pythonRange shape
      (tileShift shape chunk tags)), s.length = shape.length := by
    intro s hs
    have hf := (mem_prodLists _ _).mp hs
    have := hf.length_eq
    rw [this, List.length_zipWith, hshlen, Nat.min_self]
  have hinside : ∀ r ∈ computeRequestSlicings shape chunk tags, ∀ p,
      memROI p r.1 r.2 = true → inBoundsB p shape = true := by
    intro r hr p hroi
    rw [hdef] at hr
    obtain ⟨s, hsmem, rfl⟩ := List.mem_map.mp hr
    exact memROI_tileStops_inBounds shape _ s p (hstartlen s hsmem) hroi
  have hcover : ∀ p, inBoundsB p shape = true →
      ∃! r, r ∈ computeRequestSlicings shape chunk tags ∧
        memROI p r.1 r.2 = true := by
    intro p hp
    obtain ⟨s₀, ⟨hs₀mem, hs₀roi⟩, huniq⟩ := key p hp
    refine ⟨(s₀, tileStops s₀ (tileShift shape chunk tags) shape),
      ⟨?_, hs₀roi⟩, ?_⟩
    · rw [hdef]
      exact List.mem_map_of_mem _ hs₀mem
    · rintro r ⟨hrmem, hroi⟩
      rw [hdef] at hrmem
      obtain ⟨s, hsmem, rfl⟩ := List.mem_map.mp hrmem
      have : s = s₀ := huniq s ⟨hsmem, hroi⟩
      rw [this]
  refine ⟨hcover, hinside, ?_⟩
  have hnodupStarts : (prodLists (List.zipWith pythonRange shape
      (tileShift shape chunk tags))).Nodup :=
    prodLists_nodup _ (zip_ranges_nodup shape _ hshpos)
  have hnodupTiles : (computeRequestSlicings shape chunk tags).Nodup := by
    rw [hdef]
    refine hnodupStarts.map ?_
    intro s1 s2 h12
    exact congrArg Prod.fst h12
  refine hnodupTiles.imp_of_mem ?_
  intro r1 r2 h1 h2 hne p hpp
  obtain ⟨hp1, hp2⟩ := hpp
  have hb : inBoundsB p shape = true := hinside r1 h1 p hp1
  obtain ⟨r₀, _, huniq⟩ := hcover p hb
  exact hne ((huniq r1 ⟨h1, hp1⟩).trans (huniq r2 ⟨h2, hp2⟩).symm)

theorem computeRequestSlicings_partition_witness :
    (([1, 1] : List Nat).length = ([2, 7] : List Nat).length ∧
        ([Axis.t, Axis.x] : List Axis).length = ([2, 7] : List Nat).length ∧
        (∀ s ∈ ([2, 7] : List Nat), 0 < s) ∧
        (∀ c ∈ ([1, 1] : List Nat), 0 < c)) ∧
      ((∀ p, inBoundsB p [2, 7] = true →
          ∃! r, r ∈ computeRequestSlicings [2, 7] [1, 1] [Axis.t, Axis.x] ∧
            memROI p r.1 r.2 = true) ∧
        (∀ r ∈ computeRequestSlicings [2, 7] [1, 1] [Axis.t, Axis.x], ∀ p,
          memROI p r.1 r.2 = true → inBoundsB p [2, 7] = true) ∧
        (computeRequestSlicings [2, 7] [1, 1] [Axis.t, Axis.x]).Pairwise
          (fun r1 r2 => ∀ p, ¬(memROI p r1.1 r1.2 = true ∧
            memROI p r2.1 r2.2 = true))) :=
  ⟨⟨rfl, rfl, by decide, by decide⟩,
    computeRequestSlicings_partition [2, 7] [1, 1] [Axis.t, Axis.x]
      rfl rfl (by decide) (by decide)⟩

end LazyflowIO
